import Mathlib

/-!
Verification of the CV data-extraction engine (extract.py).

Texts are modelled as lists of characters (Lean String literals are converted
with String.toList).  Python regular-expression cascades are embedded as
explicit scanners over character lists, following the scanning semantics of
re.findall and re.sub (leftmost match, alternatives tried in order, greedy
repetition, scan resumes after a non-empty match, advance by one on failure).
Case mapping is modelled for ASCII letters, which is what the source regexes
and the claims exercise.  Floating point GPA values are modelled as rationals.
-/

namespace CVExtract

-- ==============================
-- Definitions (embedding of extract.py)
-- ==============================

/-- Space class of the regex escape for whitespace (ASCII part): space,
tab, newline, carriage return, vertical tab, form feed. -/
def isSpaceCh (c : Char) : Bool :=
  c.toNat = 32 || c.toNat = 9 || c.toNat = 10 || c.toNat = 13 || c.toNat = 11 || c.toNat = 12

/-- ASCII decimal digit. -/
def isDigitCh (c : Char) : Bool := 48 ≤ c.toNat && c.toNat ≤ 57

/-- ASCII letter, the class A-Za-z used by RE_NON_ALPHA_SPACE. -/
def isAlphaCh (c : Char) : Bool :=
  (65 ≤ c.toNat && c.toNat ≤ 90) || (97 ≤ c.toNat && c.toNat ≤ 122)

/-- Latin-1 accented letter ranges À-Ö, Ø-ö, ø-ÿ used by RE_JURUSAN_LABEL. -/
def isAccentCh (c : Char) : Bool :=
  (0xC0 ≤ c.toNat && c.toNat ≤ 0xFF) && !(c.toNat = 0xD7) && !(c.toNat = 0xF7)

/-- Word character for the word-boundary assertion of the source regexes. -/
def isWordCh (c : Char) : Bool := isAlphaCh c || isDigitCh c || c = '_' || isAccentCh c

/-- ASCII upper-casing of one character, as in the Python str.upper method. -/
def upCh (c : Char) : Char :=
  if 97 ≤ c.toNat ∧ c.toNat ≤ 122 then Char.ofNat (c.toNat - 32) else c

/-- ASCII lower-casing of one character, as in the Python str.lower method. -/
def lowCh (c : Char) : Char :=
  if 65 ≤ c.toNat ∧ c.toNat ≤ 90 then Char.ofNat (c.toNat + 32) else c

/-- Lower-case a whole text, as in the Python str.lower method. -/
def lowerStr (s : List Char) : List Char := s.map lowCh

/-- Python str.capitalize: first character upper-cased, the rest lower-cased. -/
def capitalizePy : List Char → List Char
  | [] => []
  | c :: cs => upCh c :: cs.map lowCh

/-- Splitting on whitespace keeping empty segments (helper for pysplit). -/
def splitAll : List Char → List (List Char)
  | [] => [[]]
  | c :: cs =>
    let r := splitAll cs
    if isSpaceCh c then [] :: r
    else
      match r with
      | w :: rest => (c :: w) :: rest
      | [] => [[c]]

/-- Python str.split with no argument: split on whitespace runs, no empties. -/
def pysplit (s : List Char) : List (List Char) := (splitAll s).filter (· ≠ [])

/-- Join a list of words with single spaces (Python join on a space). -/
def joinSp : List (List Char) → List Char
  | [] => []
  | [t] => t
  | t :: ts => t ++ ' ' :: joinSp ts

/-- Match a lower-case keyword case-insensitively at the head, returning the rest. -/
def matchCIrest (kw : List Char) (s : List Char) : Option (List Char) :=
  match kw, s with
  | [], rest => some rest
  | _ :: _, [] => none
  | k :: ks, c :: cs => if lowCh c = k then matchCIrest ks cs else none

/-- Word-boundary check after a match: next character must not be a word character. -/
def noWordAhead : List Char → Bool
  | [] => true
  | c :: _ => !isWordCh c

-- ==============================
-- Filename name extractor (clean_person_name_from_filename)
-- ==============================

/-- Modelled os.path.basename for POSIX paths: the part after the last slash. -/
def basename (s : List Char) : List Char := (s.reverse.takeWhile (· != '/')).reverse

/-- Root part of os.path.splitext: drop the extension after the last dot,
provided some earlier character of the name is not a dot. -/
def splitextRoot (b : List Char) : List Char :=
  match b.reverse.dropWhile (· != '.') with
  | [] => b
  | _ :: rest => if rest.any (· != '.') then rest.reverse else b

/-- Substitution of RE_PREFIX_NUMBER_DOT: strip one leading
spaces-digits-spaces-dot-spaces prefix, anchored at the start. -/
def stripLeadNumDot (s : List Char) : List Char :=
  let t1 := s.dropWhile isSpaceCh
  if (t1.takeWhile isDigitCh) = [] then s
  else
    match (t1.dropWhile isDigitCh).dropWhile isSpaceCh with
    | '.' :: t3 => t3.dropWhile isSpaceCh
    | _ => s

/-- The three str.replace calls mapping underscore, hyphen and dot to spaces. -/
def replaceSeps (s : List Char) : List Char :=
  s.map (fun c => if c = '_' ∨ c = '-' ∨ c = '.' then ' ' else c)

/-- One attempt of RE_CV_ANY at the current position (boundary before already
checked by the caller): curriculum-vitae phrase or the bare cv token. -/
def cvMatch (s : List Char) : Option (List Char) :=
  match matchCIrest ("curriculum".toList) s with
  | some r1 =>
    match r1 with
    | c :: _ =>
      if isSpaceCh c then
        match matchCIrest ("vitae".toList) (r1.dropWhile isSpaceCh) with
        | some r2 => if noWordAhead r2 then some r2 else none
        | none => none
      else none
    | [] => none
  | none =>
    match matchCIrest ("cv".toList) s with
    | some r => if noWordAhead r then some r else none
    | none => none

/-- Scanner of the RE_CV_ANY substitution; prevW records whether the previous
character of the original string is a word character. -/
def cvSubGo : Nat → Bool → List Char → List Char
  | 0, _, s => s
  | _ + 1, _, [] => []
  | fuel + 1, prevW, c :: cs =>
    if prevW then c :: cvSubGo fuel (isWordCh c) cs
    else
      match cvMatch (c :: cs) with
      | some rest => ' ' :: cvSubGo fuel true rest
      | none => c :: cvSubGo fuel (isWordCh c) cs

/-- Substitution of RE_CV_ANY by a single space. -/
def cvSub (s : List Char) : List Char := cvSubGo s.length false s

/-- Left part of re.split on spaces-separator-spaces: cut at the first position
where a space run is immediately followed by the separator and a space. -/
def splitSepGo (isSep : Char → Bool) : List Char → List Char
  | [] => []
  | c :: cs =>
    if isSpaceCh c then
      match (c :: cs).dropWhile isSpaceCh with
      | x :: y :: _ =>
        if isSep x && isSpaceCh y then [] else c :: splitSepGo isSep cs
      | _ => c :: splitSepGo isSep cs
    else c :: splitSepGo isSep cs

/-- First segment of RE_SPLIT_AND_COLON (separator ampersand or colon). -/
def splitAndColonFirst (s : List Char) : List Char :=
  splitSepGo (fun c => c = '&' || c = ':') s

/-- First segment of RE_SPLIT_DASH (separator hyphen). -/
def splitDashFirst (s : List Char) : List Char :=
  splitSepGo (fun c => c = '-') s

/-- One attempt of RE_PARENS_NUM at the current position: an opening paren,
spaces, at least one digit, spaces, a closing paren. -/
def parensTry (s : List Char) : Option (List Char) :=
  match s with
  | c :: r1 =>
    if c = '(' then
      let r2 := r1.dropWhile isSpaceCh
      if (r2.takeWhile isDigitCh) = [] then none
      else
        match (r2.dropWhile isDigitCh).dropWhile isSpaceCh with
        | ')' :: r3 => some r3
        | _ => none
    else none
  | [] => none

/-- Scanner of the RE_PARENS_NUM substitution by a single space. -/
def parensGo : Nat → List Char → List Char
  | 0, s => s
  | _ + 1, [] => []
  | fuel + 1, c :: cs =>
    match parensTry (c :: cs) with
    | some rest => ' ' :: parensGo fuel rest
    | none => c :: parensGo fuel cs

/-- Substitution of RE_PARENS_NUM by a single space. -/
def parensSub (s : List Char) : List Char := parensGo s.length s

/-- Substitution of RE_NUMBERS: each maximal digit run becomes one space. -/
def numSubGo (inRun : Bool) : List Char → List Char
  | [] => []
  | c :: cs =>
    if isDigitCh c then
      if inRun then numSubGo true cs else ' ' :: numSubGo true cs
    else c :: numSubGo false cs

/-- Substitution of RE_NUMBERS by a single space per digit run. -/
def numSub (s : List Char) : List Char := numSubGo false s

/-- Substitution of RE_NON_ALPHA_SPACE: non-letter, non-space characters
become spaces. -/
def nonAlphaSub (s : List Char) : List Char :=
  s.map (fun c => if isAlphaCh c || isSpaceCh c then c else ' ')

/-- Substitution of RE_SPACES: each maximal whitespace run becomes one space. -/
def spaceCollapseGo (inRun : Bool) : List Char → List Char
  | [] => []
  | c :: cs =>
    if isSpaceCh c then
      if inRun then spaceCollapseGo true cs else ' ' :: spaceCollapseGo true cs
    else c :: spaceCollapseGo false cs

/-- Substitution of RE_SPACES by a single space per run. -/
def spaceCollapse (s : List Char) : List Char := spaceCollapseGo false s

/-- Python str.strip restricted to whitespace on both ends. -/
def stripStr (s : List Char) : List Char :=
  ((s.dropWhile isSpaceCh).reverse.dropWhile isSpaceCh).reverse

/-- Embedding of clean_person_name_from_filename from extract.py. -/
def clean_person_name_from_filename (filename : List Char) : List Char :=
  let s0 := splitextRoot (basename filename)
  let s1 := stripLeadNumDot s0
  let s2 := replaceSeps s1
  let s3 := cvSub s2
  let s4 := splitAndColonFirst s3
  let s5 := splitDashFirst s4
  let s6 := parensSub s5
  let s7 := numSub s6
  let s8 := nonAlphaSub s7
  let s9 := stripStr (spaceCollapse s8)
  let tokens := pysplit s9
  if tokens = [] then []
  else joinSp ((tokens.take 6).map capitalizePy)

-- ==============================
-- GPA extractor (RE_IPK_NEAR cascade, extract_ipk)
-- ==============================

/-- Candidate suffixes of a greedy star over whitespace, longest drop first,
in the backtracking order of the regex engine. -/
def spaceBacktrack : List Char → List (List Char)
  | [] => [[]]
  | c :: cs => if isSpaceCh c then spaceBacktrack cs ++ [c :: cs] else [c :: cs]

/-- Candidate suffixes after the separator piece of the label patterns
(spaces, an optional colon or hyphen, spaces), in backtracking order. -/
def afterSeps (s : List Char) : List (List Char) :=
  let base := spaceBacktrack s
  match s.dropWhile isSpaceCh with
  | c :: t => if c = ':' || c = '-' then spaceBacktrack t ++ base else base
  | [] => base

/-- Return the first successful application of f along a candidate list. -/
def firstSome {α β : Type} (f : α → Option β) : List α → Option β
  | [] => none
  | x :: xs =>
    match f x with
    | some y => some y
    | none => firstSome f xs

/-- Candidates of the capture group of the GPA patterns, one digit 0-4, a dot
or comma, then two or three digits, greedy (three digits first). Each
candidate carries the rest of the input after the capture. -/
def capCandidates (s : List Char) : List (List Char × List Char) :=
  match s with
  | d :: sep :: a :: b :: rest =>
    if (('0' ≤ d && d ≤ '4') && (sep = '.' || sep = ',') && isDigitCh a && isDigitCh b) then
      match rest with
      | e :: rest2 =>
        if isDigitCh e then [([d, sep, a, b, e], rest2), ([d, sep, a, b], rest)]
        else [([d, sep, a, b], rest)]
      | [] => [([d, sep, a, b], [])]
    else []
  | _ => []

/-- Greedy capture of the GPA number group when the group ends the pattern. -/
def capNumber (s : List Char) : Option (List Char × List Char) :=
  (capCandidates s).head?

/-- Attempt of one label-anchored GPA pattern at the current position: a
case-insensitive keyword, the separator piece, then the number capture. -/
def ipkLabelTry (kw : List Char) (s : List Char) : Option (List Char × List Char) :=
  match matchCIrest kw s with
  | some r1 => firstSome capNumber (afterSeps r1)
  | none => none

/-- Attempt of the Indeks Prestasi (Kumulatif) GPA pattern at the current
position, trying the optional Kumulatif group greedily first. -/
def indeksTry (s : List Char) : Option (List Char × List Char) :=
  match matchCIrest ("indeks".toList) s with
  | some r1 =>
    match r1 with
    | c :: _ =>
      if isSpaceCh c then
        match matchCIrest ("prestasi".toList) (r1.dropWhile isSpaceCh) with
        | some r2 =>
          let branches :=
            match matchCIrest ("kumulatif".toList) (r2.dropWhile isSpaceCh) with
            | some r3 => [r3, r2]
            | none => [r2]
          firstSome (fun r => firstSome capNumber (afterSeps r)) branches
        | none => none
      else none
    | [] => none
  | none => none

/-- Tail of the ratio GPA pattern after the capture: spaces, a slash or dari
or out-of, spaces, the digit four; returns the rest after the four. -/
def ratioTailTry (r1 : List Char) : Option (List Char) :=
  let r2 := r1.dropWhile isSpaceCh
  let afterAlt : Option (List Char) :=
    match r2 with
    | '/' :: r3 => some r3
    | _ =>
      match matchCIrest ("dari".toList) r2 with
      | some r3 => some r3
      | none => matchCIrest ("out of".toList) r2
  match afterAlt with
  | some r3 =>
    match r3.dropWhile isSpaceCh with
    | '4' :: r4 => some r4
    | _ => none
  | none => none

/-- Attempt of the ratio GPA pattern at the current position, backtracking
from the three-digit capture to the two-digit capture if the tail fails. -/
def ratioTry (s : List Char) : Option (List Char × List Char) :=
  firstSome
    (fun cr =>
      match ratioTailTry cr.2 with
      | some r4 => some (cr.1, r4)
      | none => none)
    (capCandidates s)

/-- Scanner following re.findall: at each position, if the word boundary
requirement holds, attempt the pattern; on success record the capture and
resume after the match, otherwise advance one character. -/
def scanCaps {β : Type} (needB : Bool) (tryAt : List Char → Option (β × List Char)) :
    Nat → Bool → List Char → List β
  | 0, _, _ => []
  | _ + 1, _, [] => []
  | fuel + 1, prevW, c :: cs =>
    if needB && prevW then scanCaps needB tryAt fuel (isWordCh c) cs
    else
      match tryAt (c :: cs) with
      | some (cap, rest) => cap :: scanCaps needB tryAt fuel true rest
      | none => scanCaps needB tryAt fuel (isWordCh c) cs

/-- All captures of the four RE_IPK_NEAR patterns, in cascade order. -/
def findIpkAll (text : List Char) : List (List Char) :=
  scanCaps true (ipkLabelTry ("ipk".toList)) text.length false text ++
  scanCaps true (ipkLabelTry ("gpa".toList)) text.length false text ++
  scanCaps true indeksTry text.length false text ++
  scanCaps false ratioTry text.length false text

/-- Numeric value of an ASCII digit. -/
def digitVal (c : Char) : Nat := c.toNat - 48

/-- Value of a captured GPA string after the comma-to-dot normalization, in
exact thousandths; this models float parsing of the two-or-three-decimal
shapes the patterns produce (exact at this precision). -/
def parseIpkCap (cap : List Char) : Option Nat :=
  match cap with
  | [d, _, a, b] => some (digitVal d * 1000 + digitVal a * 100 + digitVal b * 10)
  | [d, _, a, b, e] => some (digitVal d * 1000 + digitVal a * 100 + digitVal b * 10 + digitVal e)
  | _ => none

/-- Rounding a thousandths value to hundredths (Python round at two
decimals; a tie on the third decimal is modelled half-up). -/
def roundHund (v : Nat) : Nat := (v + 5) / 10

/-- Loop body of extract_ipk: the first capture whose value lies in the
closed range two to four is rounded to hundredths and returned, any capture
outside the range is discarded and the scan continues. -/
def pickIpk : List (List Char) → Option Nat
  | [] => none
  | cap :: caps =>
    match parseIpkCap cap with
    | some v => if 2000 ≤ v ∧ v ≤ 4000 then some (roundHund v) else pickIpk caps
    | none => pickIpk caps

/-- Embedding of CVDataExtractor.extract_ipk from extract.py; the returned
GPA is in exact hundredths (375 stands for the float 3.75). -/
def extract_ipk (text : List Char) : Option Nat := pickIpk (findIpkAll text)

/-- Rational view of a hundredths GPA value, for range statements. -/
def gpaVal (n : Nat) : ℚ := (n : ℚ) / 100

-- ==============================
-- Major extractor (RE_JURUSAN_LABEL, MAJOR_NORMALIZE, extract_jurusan)
-- ==============================

/-- Prefix test for raw character lists. -/
def startsWith : List Char → List Char → Bool
  | [], _ => true
  | _ :: _, [] => false
  | p :: ps, c :: cs => p = c && startsWith ps cs

/-- Substring containment, the Python in operator on strings. -/
def containsSub (pat : List Char) : List Char → Bool
  | [] => startsWith pat []
  | c :: cs => startsWith pat (c :: cs) || containsSub pat cs

/-- The STOP_TOKENS_TAIL set from extract.py. -/
def STOP_TOKENS_TAIL : List (List Char) :=
  ["universitas", "university", "dinamika", "surabaya", "semester", "agustus",
   "juli", "juni", "mei", "oktober", "november", "desember", "september",
   "maret", "april", "tahun", "dengan", "minat", "kuat", "bidang", "yang",
   "sekarang", "sedang", "melanjutkan", "studi", "jujur", "juara", "disiplin",
   "smk", "smkn"].map String.toList

/-- The MAJOR_NORMALIZE synonym table from extract.py, in insertion order. -/
def MAJOR_NORMALIZE : List (List Char × List Char) :=
  [("information system", "Sistem Informasi"),
   ("information systems", "Sistem Informasi"),
   ("sistem informasi", "Sistem Informasi"),
   ("teknik informatika", "Teknik Informatika"),
   ("informatika", "Teknik Informatika"),
   ("computer engineering", "Teknik Komputer"),
   ("teknik komputer", "Teknik Komputer"),
   ("dkv", "Desain Komunikasi Visual"),
   ("desain komunikasi visual", "Desain Komunikasi Visual"),
   ("manajemen bisnis", "Manajemen Bisnis"),
   ("teknik elektro", "Teknik Elektro"),
   ("teknik mesin", "Teknik Mesin"),
   ("teknik sipil", "Teknik Sipil"),
   ("arsitektur", "Arsitektur")].map (fun kv => (kv.1.toList, kv.2.toList))

/-- The SMA_TRACK set from extract.py. -/
def SMA_TRACK : List (List Char) := ["ipa", "ips", "bahasa"].map String.toList

/-- The helper _title from extract.py: split on whitespace, capitalize each
word, join with single spaces. -/
def titleJoin (s : List Char) : List Char := joinSp ((pysplit s).map capitalizePy)

/-- Stop-token truncation step of _normalize_major_phrase: the phrase up to
the first word of the stop set, joined and stripped. -/
def majorPhrase1 (phrase : List Char) : List Char :=
  stripStr (joinSp ((pysplit phrase).takeWhile (fun w => !(STOP_TOKENS_TAIL.contains (lowerStr w)))))

/-- Six-token cap step of _normalize_major_phrase. -/
def majorPhrase2 (phrase : List Char) : List Char :=
  stripStr (joinSp ((pysplit (majorPhrase1 phrase)).take 6))

/-- Embedding of CVDataExtractor._normalize_major_phrase from extract.py. -/
def _normalize_major_phrase (phrase : List Char) : Option (List Char) :=
  if majorPhrase1 phrase = [] then none
  else
    let low := lowerStr (majorPhrase2 phrase)
    match MAJOR_NORMALIZE.find? (fun kv => containsSub kv.1 low) with
    | some kv => some kv.2
    | none =>
      match MAJOR_NORMALIZE.find? (fun kv => kv.1 == low) with
      | some kv => some kv.2
      | none =>
        let phrase_tc := titleJoin (majorPhrase2 phrase)
        if SMA_TRACK.contains (lowerStr phrase_tc) then none else some phrase_tc

/-- Keyword alternation of the label-anchored major pattern: Jurusan,
Program Studi, Prodi, Study Program or Department, case-insensitively, in
the alternation order of the source pattern. -/
def jurLabelKw (s : List Char) : Option (List Char) :=
  match matchCIrest ("jurusan".toList) s with
  | some r => some r
  | none =>
    match matchCIrest ("program".toList) s with
    | some r1 => matchCIrest ("studi".toList) (r1.dropWhile isSpaceCh)
    | none =>
      match matchCIrest ("prodi".toList) s with
      | some r => some r
      | none =>
        match matchCIrest ("study".toList) s with
        | some r1 => matchCIrest ("program".toList) (r1.dropWhile isSpaceCh)
        | none => matchCIrest ("department".toList) s

/-- Greedy capture of the label-anchored pattern: three to one hundred
characters other than newline, comma and dot. -/
def phraseCapTry (s : List Char) : Option (List Char × List Char) :=
  let cap := (s.takeWhile (fun c => !(c = '\n' || c = ',' || c = '.'))).take 100
  if 3 ≤ cap.length then some (cap, s.drop cap.length) else none

/-- Attempt of the label-anchored major pattern at the current position. -/
def jurLabelTry (s : List Char) : Option (List Char × List Char) :=
  match jurLabelKw s with
  | some r1 => firstSome phraseCapTry (afterSeps r1)
  | none => none

/-- Degree-level token S1-S3 or D1-D4, case-insensitive, returned as it is
written in the text. -/
def degreeTokTry (s : List Char) : Option (List Char × List Char) :=
  match s with
  | c1 :: c2 :: rest =>
    if (lowCh c1 = 's' && (c2 = '1' || c2 = '2' || c2 = '3')) ||
       (lowCh c1 = 'd' && (c2 = '1' || c2 = '2' || c2 = '3' || c2 = '4')) then
      some ([c1, c2], rest)
    else none
  | _ => none

/-- Candidate suffixes of a greedy plus over whitespace (at least one space
consumed), longest drop first. -/
def spaceBacktrackPos (s : List Char) : List (List Char) :=
  match s with
  | c :: cs => if isSpaceCh c then spaceBacktrack cs else []
  | [] => []

/-- Character class of the degree-anchored major capture: letters, Latin-1
accented letters, whitespace, ampersand, hyphen and slash. -/
def isMajorCh (c : Char) : Bool :=
  isAlphaCh c || isAccentCh c || isSpaceCh c || c = '&' || c = '-' || c = '/'

/-- Greedy capture of the degree-anchored pattern, three to one hundred
characters of the major class. -/
def majorCapTry (s : List Char) : Option (List Char × List Char) :=
  let cap := (s.takeWhile isMajorCh).take 100
  if 3 ≤ cap.length then some (cap, s.drop cap.length) else none

/-- Attempt of the degree-anchored major pattern at the current position,
returning the degree token and the captured phrase. -/
def jurDegreeTry (s : List Char) : Option ((List Char × List Char) × List Char) :=
  match degreeTokTry s with
  | some (tok, r1) =>
    match firstSome majorCapTry (spaceBacktrackPos r1) with
    | some (cap, rest) => some ((tok, cap), rest)
    | none => none
  | none => none

/-- Embedding of CVDataExtractor.extract_jurusan from extract.py: all
matches of the label pattern are normalized first, then all matches of the
degree pattern, the first normalization that succeeds being returned. -/
def extract_jurusan (text : List Char) : Option (List Char) :=
  match firstSome _normalize_major_phrase (scanCaps true jurLabelTry text.length false text) with
  | some norm => some norm
  | none =>
    firstSome
      (fun tm =>
        match _normalize_major_phrase tm.2 with
        | some norm => some (tm.1.map upCh ++ ' ' :: norm)
        | none => none)
      (scanCaps true jurDegreeTry text.length false text)

-- ==============================
-- Semester extractor (RE_SEM_NEAR, extract_semester)
-- ==============================

/-- Capture of the semester number group, ten to twelve tried greedily
before a single digit one to nine, with a trailing word boundary. -/
def semNumTry (s : List Char) : Option (List Char × List Char) :=
  match s with
  | '1' :: c2 :: rest =>
    if (c2 = '0' || c2 = '1' || c2 = '2') && noWordAhead rest then some (['1', c2], rest)
    else if noWordAhead (c2 :: rest) then some (['1'], c2 :: rest)
    else none
  | c :: rest =>
    if ('1' ≤ c && c ≤ '9') && noWordAhead rest then some ([c], rest) else none
  | [] => none

/-- Attempt of a label-anchored semester pattern at the current position:
the keyword, the separator piece, then the number capture. -/
def semLabelTry (kw : List Char) (s : List Char) : Option (List Char × List Char) :=
  match matchCIrest kw s with
  | some r1 => firstSome semNumTry (afterSeps r1)
  | none => none

/-- Tail of the number-first semester pattern: spaces, an optional th or
tahun, spaces, then semester or sem closed by a word boundary. -/
def semTailTry (r1 : List Char) : Option (List Char) :=
  let r2 := r1.dropWhile isSpaceCh
  let cands :=
    (match matchCIrest ("th".toList) r2 with | some r3 => [r3] | none => []) ++
    (match matchCIrest ("tahun".toList) r2 with | some r3 => [r3] | none => []) ++
    [r2]
  firstSome
    (fun r =>
      let r4 := r.dropWhile isSpaceCh
      match matchCIrest ("semester".toList) r4 with
      | some r5 => if noWordAhead r5 then some r5 else none
      | none =>
        match matchCIrest ("sem".toList) r4 with
        | some r5 => if noWordAhead r5 then some r5 else none
        | none => none)
    cands

/-- Attempt of the number-first semester pattern at the current position. -/
def semRevTry (s : List Char) : Option (List Char × List Char) :=
  match semNumTry s with
  | some (cap, r1) =>
    match semTailTry r1 with
    | some rest => some (cap, rest)
    | none => none
  | none => none

/-- Integer value of a captured digit string. -/
def parseSemCap (cap : List Char) : Nat := cap.foldl (fun n c => n * 10 + digitVal c) 0

/-- Loop body of extract_semester: first capture whose value lies between
one and twelve. -/
def pickSem : List (List Char) → Option Nat
  | [] => none
  | cap :: caps =>
    let sem := parseSemCap cap
    if 1 ≤ sem ∧ sem ≤ 12 then some sem else pickSem caps

/-- Embedding of CVDataExtractor.extract_semester from extract.py. -/
def extract_semester (text : List Char) : Option Nat :=
  pickSem
    (scanCaps true (semLabelTry ("semester".toList)) text.length false text ++
     scanCaps true (semLabelTry ("sem".toList)) text.length false text ++
     scanCaps true semRevTry text.length false text)

-- ==============================
-- Skills extractor (SKILL_SET, SKILL_SYNONYM, SKILL_SECTIONS)
-- ==============================

/-- The SKILL_SYNONYM rewriting table from extract.py, in insertion order,
with the canonical side already lower-cased as at the use site. -/
def SKILL_SYNONYM : List (List Char × List Char) :=
  [("rest", "rest"), ("rest api", "rest"), ("node", "nodejs"),
   ("node.js", "nodejs"), ("adobe xd", "adobe xd"), ("c plus plus", "c++"),
   ("c sharp", "c#")].map (fun kv => (kv.1.toList, kv.2.toList))

/-- The SKILL_SET vocabulary from extract.py. -/
def SKILL_SET : List (List Char) :=
  ["python", "java", "javascript", "typescript", "html", "css", "php", "ruby",
   "swift", "kotlin", "c++", "c#", "go", "react", "vue", "angular", "nodejs",
   "express", "django", "flask", "laravel", "mysql", "postgresql", "mongodb",
   "sqlite", "oracle", "redis", "flutter", "react native", "android studio",
   "xcode", "aws", "azure", "gcp", "docker", "kubernetes", "jenkins", "gitlab",
   "github", "bitbucket", "terraform", "ansible", "photoshop", "illustrator",
   "figma", "adobe xd", "canva", "coreldraw", "premiere", "after effects",
   "tableau", "power bi", "google analytics", "spss", "linux",
   "windows server", "macos", "git", "graphql", "rest", "microservices",
   "agile", "scrum", "jira", "trello", "notion"].map String.toList

/-- The acronym set whose members are rendered fully upper-case. -/
def SKILL_UPPER : List (List Char) :=
  ["c++", "c#", "aws", "gcp", "css", "html", "sql"].map String.toList

/-- Python str.replace: left-to-right non-overlapping replacement of a
non-empty pattern. -/
def replaceAll (pat rep : List Char) : Nat → List Char → List Char
  | 0, s => s
  | _ + 1, [] => []
  | fuel + 1, c :: cs =>
    if startsWith pat (c :: cs) then rep ++ replaceAll pat rep fuel ((c :: cs).drop pat.length)
    else c :: replaceAll pat rep fuel cs

/-- Python str.title: a letter is upper-cased after an uncased character
and lower-cased after a cased one. -/
def titleGo (prevCased : Bool) : List Char → List Char
  | [] => []
  | c :: cs =>
    if isAlphaCh c then (if prevCased then lowCh c else upCh c) :: titleGo true cs
    else c :: titleGo false cs

/-- Python str.title at the start of a string. -/
def pyTitle (s : List Char) : List Char := titleGo false s

/-- Per-keyword capitalization of a matched skill, with the REST special
case, as in _collect_skills_from_text. -/
def renderSkill (kw : List Char) : List Char :=
  let name := if SKILL_UPPER.contains kw then kw.map upCh else pyTitle kw
  if lowerStr name = "rest".toList then "REST".toList else name

/-- Strict lexicographic comparison of character lists by code point, the
ordering of Python sorted on strings. -/
def ltStr : List Char → List Char → Bool
  | [], [] => false
  | [], _ :: _ => true
  | _ :: _, [] => false
  | x :: xs, y :: ys => if x < y then true else if y < x then false else ltStr xs ys

/-- Insertion into a strictly sorted list, dropping duplicates. -/
def insSorted (x : List Char) : List (List Char) → List (List Char)
  | [] => [x]
  | y :: ys =>
    if ltStr x y then x :: y :: ys
    else if x = y then y :: ys
    else y :: insSorted x ys

/-- Sorted deduplicated list of a bag of names, the model of Python
sorted over a set. -/
def sortedInsertAll (ws : List (List Char)) : List (List Char) :=
  ws.foldl (fun acc w => insSorted w acc) []

/-- Keyword alternation of the first SKILL_SECTIONS pattern. -/
def sec1Kw (s : List Char) : Option (List Char) :=
  match matchCIrest ("keahlian".toList) s with
  | some r => some r
  | none =>
    match matchCIrest ("keterampilan".toList) s with
    | some r => some r
    | none =>
      match matchCIrest ("kemampuan".toList) s with
      | some r => some r
      | none =>
        match matchCIrest ("skill".toList) s with
        | some r =>
          some (match r with
                | c :: cs => if lowCh c = 's' then cs else r
                | [] => r)
        | none =>
          match matchCIrest ("technical".toList) s with
          | some r1 =>
            match matchCIrest ("skill".toList) (r1.dropWhile isSpaceCh) with
            | some r =>
              some (match r with
                    | c :: cs => if lowCh c = 's' then cs else r
                    | [] => r)
            | none => none
          | none => none

/-- Keyword alternation of the second SKILL_SECTIONS pattern. -/
def sec2Kw (s : List Char) : Option (List Char) :=
  match matchCIrest ("software".toList) s with
  | some r => some r
  | none =>
    match matchCIrest ("tool".toList) s with
    | some r =>
      some (match r with
            | c :: cs => if lowCh c = 's' then cs else r
            | [] => r)
    | none =>
      match matchCIrest ("teknologi".toList) s with
      | some r => some r
      | none =>
        match matchCIrest ("bahasa".toList) s with
        | some r1 =>
          match matchCIrest ("pemrograman".toList) (r1.dropWhile isSpaceCh) with
          | some r => some r
          | none => none
        | none =>
          match matchCIrest ("programming".toList) s with
          | some r1 =>
            match matchCIrest ("language".toList) (r1.dropWhile isSpaceCh) with
            | some r =>
              some (match r with
                    | c :: cs => if lowCh c = 's' then cs else r
                    | [] => r)
            | none => none
          | none => none

/-- Scanner of one SKILL_SECTIONS pattern: after a keyword, spaces and
colons are skipped and up to cap characters are captured. -/
def secGo (kwTry : List Char → Option (List Char)) (cap : Nat) : Nat → List Char → List (List Char)
  | 0, _ => []
  | _ + 1, [] => []
  | fuel + 1, c :: cs =>
    match kwTry (c :: cs) with
    | some r1 =>
      let r2 := r1.dropWhile (fun x => isSpaceCh x || x = ':')
      r2.take cap :: secGo kwTry cap fuel (r2.drop cap)
    | none => secGo kwTry cap fuel cs

/-- Embedding of CVDataExtractor._collect_skills_from_text from extract.py. -/
def _collect_skills_from_text (text : List Char) : List (List Char) :=
  let low := lowerStr text
  let section_text :=
    ((secGo sec1Kw 600 text.length text) ++ (secGo sec2Kw 400 text.length text)).foldl
      (fun acc m => acc ++ ' ' :: m) []
  let scan_zone := if section_text.any (fun c => !(isSpaceCh c)) then section_text else low
  let z := SKILL_SYNONYM.foldl (fun zz sy => replaceAll sy.1 sy.2 zz.length zz) (lowerStr scan_zone)
  sortedInsertAll ((SKILL_SET.filter (fun kw => containsSub kw z)).map renderSkill)

/-- Embedding of CVDataExtractor.extract_skills from extract.py. -/
def extract_skills (text : List Char) : List (List Char) := _collect_skills_from_text text

-- ==============================
-- Document pipeline (extract_from_cv) and batch processor
-- ==============================

/-- One extraction record, the dictionary assembled per document by
extract_from_cv; the GPA is in exact hundredths, and the skills cell is the
comma-joined serialized list as in the source. -/
structure Record where
  nama : List Char
  ipk : Option Nat
  jurusan : Option (List Char)
  semester : Option Nat
  skills : List Char
  skill_count : Nat
  extraction_status : List Char
  extraction_date : List Char
deriving DecidableEq

/-- Comma-space join, the Python join used for missing fields and skills. -/
def joinCommaSp (ws : List (List Char)) : List Char := List.intercalate (", ".toList) ws

/-- Embedding of CVDataExtractor.extract_from_cv from extract.py. The text
argument models the string returned by the external PDF text extraction,
and now models the timestamp taken at record creation. -/
def extract_from_cv (pdf_path text now : List Char) : Record :=
  let nama := clean_person_name_from_filename pdf_path
  if text = [] then
    { nama := nama, ipk := none, jurusan := none, semester := none,
      skills := [], skill_count := 0,
      extraction_status := "Failed - No text extracted".toList,
      extraction_date := now }
  else
    let ipk := extract_ipk text
    let jurusan := extract_jurusan text
    let semester := extract_semester text
    let skills := extract_skills text
    let missing :=
      (if ipk = none then ["IPK".toList] else []) ++
      (if jurusan = none then ["Jurusan".toList] else [])
    let status :=
      if missing = [] then "Success".toList
      else "Partial - Missing: ".toList ++ joinCommaSp missing
    { nama := nama, ipk := ipk, jurusan := jurusan, semester := semester,
      skills := if skills = [] then [] else joinCommaSp skills,
      skill_count := skills.length,
      extraction_status := status, extraction_date := now }

/-- The substituted record built by process_cv_folder when the pipeline
raises on one document: the fault message and the filename-derived name,
all other fields absent. -/
def errorRecord (pdf_file errMsg now : List Char) : Record :=
  { nama := clean_person_name_from_filename pdf_file, ipk := none,
    jurusan := none, semester := none, skills := [], skill_count := 0,
    extraction_status := "Error: ".toList ++ errMsg, extraction_date := now }

/-- Directory listing filter of process_cv_folder: names whose lower-case
form ends in the pdf extension. -/
def pdfFilesOf (entries : List (List Char)) : List (List Char) :=
  entries.filter (fun f => List.isSuffixOf (".pdf".toList) (lowerStr f))

/-- Embedding of the per-document loop of CVDataExtractor.process_cv_folder
from extract.py. The run argument models the call of extract_from_cv on the
joined path, which performs PDF input and may raise; a raised fault is
caught and substituted by an error record, and the loop continues. -/
def process_cv_folder (run : List Char → Except (List Char) Record)
    (folder : List Char) (entries : List (List Char)) (now : List Char) : List Record :=
  (pdfFilesOf entries).map
    (fun pdf_file =>
      match run (folder ++ '/' :: pdf_file) with
      | Except.ok r => r
      | Except.error e => errorRecord pdf_file e now)

/-- Status classifier of the pipeline as a function of text emptiness and
the two required fields alone, used to state that semester and skills never
gate the status. -/
def statusOf (noText : Prop) [Decidable noText] (ipk : Option Nat) (jurusan : Option (List Char)) : List Char :=
  if noText then "Failed - No text extracted".toList
  else
    let missing :=
      (if ipk = none then ["IPK".toList] else []) ++
      (if jurusan = none then ["Jurusan".toList] else [])
    if missing = [] then "Success".toList
    else "Partial - Missing: ".toList ++ joinCommaSp missing

/-- Skills list of the record of a document, empty when no text was
extracted. -/
def reportedSkills (text : List Char) : List (List Char) :=
  if text = [] then [] else extract_skills text

/-- Demonstration pipeline outcome for the C5 witness: the first listed
document raises a fault, every other one returns a record. -/
def demoRun : List Char → Except (List Char) Record :=
  fun path =>
    if path = "cv".toList ++ '/' :: "a.pdf".toList then Except.error ("boom".toList)
    else Except.ok (extract_from_cv path ("halo".toList) [])

-- ==============================
-- Helper lemmas for the GPA claims
-- ==============================

/-- Shape of every capture of the GPA patterns: one digit zero to four, a
dot or comma, then exactly two or three digits. -/
def ipkCapShape (cap : List Char) : Prop :=
  ∃ d sep a b, ('0' ≤ d ∧ d ≤ '4') ∧ (sep = '.' ∨ sep = ',') ∧
    isDigitCh a = true ∧ isDigitCh b = true ∧
    (cap = [d, sep, a, b] ∨ ∃ e, isDigitCh e = true ∧ cap = [d, sep, a, b, e])

/-- A token of a cleaned name: non-empty, purely alphabetic, fixed by the
capitalize step. -/
def NiceTok (t : List Char) : Prop :=
  t ≠ [] ∧ (∀ c ∈ t, isAlphaCh c = true) ∧ capitalizePy t = t

/-- Shape of every output of the filename name extractor: empty, or at most
six nice tokens joined with single spaces. -/
def NiceName (s : List Char) : Prop :=
  s = [] ∨ ∃ ts : List (List Char), ts ≠ [] ∧ ts.length ≤ 6 ∧
    (∀ t ∈ ts, NiceTok t) ∧ s = joinSp ts

-- ==============================
-- Theorems
-- ==============================

theorem toNat_ofNat_valid (n : Nat) (h : n < 55296) : (Char.ofNat n).toNat = n := by
  simp [Char.ofNat, Char.toNat, Nat.isValidChar, h, Char.ofNatAux, UInt32.toNat]

theorem toNat_upCh (c : Char) :
    (upCh c).toNat = if 97 ≤ c.toNat ∧ c.toNat ≤ 122 then c.toNat - 32 else c.toNat := by
  unfold upCh
  split
  next h => exact toNat_ofNat_valid _ (by omega)
  next h => rfl

theorem toNat_lowCh (c : Char) :
    (lowCh c).toNat = if 65 ≤ c.toNat ∧ c.toNat ≤ 90 then c.toNat + 32 else c.toNat := by
  unfold lowCh
  split
  next h => exact toNat_ofNat_valid _ (by omega)
  next h => rfl

theorem upCh_upCh (c : Char) : upCh (upCh c) = upCh c := by
  unfold upCh
  split
  next h =>
    have hv : (Char.ofNat (c.toNat - 32)).toNat = c.toNat - 32 :=
      toNat_ofNat_valid _ (by omega)
    rw [if_neg (by rw [hv]; omega)]
  next h => rfl

theorem lowCh_lowCh (c : Char) : lowCh (lowCh c) = lowCh c := by
  unfold lowCh
  split
  next h =>
    have hv : (Char.ofNat (c.toNat + 32)).toNat = c.toNat + 32 :=
      toNat_ofNat_valid _ (by omega)
    rw [if_neg (by rw [hv]; omega)]
  next h => rfl

theorem isAlphaCh_upCh (c : Char) (h : isAlphaCh c = true) : isAlphaCh (upCh c) = true := by
  unfold isAlphaCh at h ⊢
  rw [toNat_upCh]
  simp only [Bool.or_eq_true, Bool.and_eq_true, decide_eq_true_eq] at h ⊢
  split <;> omega

theorem isAlphaCh_lowCh (c : Char) (h : isAlphaCh c = true) : isAlphaCh (lowCh c) = true := by
  unfold isAlphaCh at h ⊢
  rw [toNat_lowCh]
  simp only [Bool.or_eq_true, Bool.and_eq_true, decide_eq_true_eq] at h ⊢
  split <;> omega

theorem alpha_not_space (c : Char) (h : isAlphaCh c = true) : isSpaceCh c = false := by
  unfold isAlphaCh at h
  unfold isSpaceCh
  simp only [Bool.or_eq_true, Bool.and_eq_true, decide_eq_true_eq] at h
  simp only [Bool.or_eq_false_iff, decide_eq_false_iff_not]
  omega

theorem alpha_not_digit (c : Char) (h : isAlphaCh c = true) : isDigitCh c = false := by
  unfold isAlphaCh at h
  unfold isDigitCh
  simp only [Bool.or_eq_true, Bool.and_eq_true, decide_eq_true_eq] at h
  simp only [Bool.and_eq_false_iff, decide_eq_false_iff_not]
  omega

theorem ne_of_toNat_ne {c d : Char} (h : c.toNat ≠ d.toNat) : c ≠ d :=
  fun he => h (he ▸ rfl)

theorem alpha_ne_lit (c d : Char) (h : isAlphaCh c = true) (hd : isAlphaCh d = false) :
    c ≠ d := by
  intro he
  rw [he, hd] at h
  cases h

example : clean_person_name_from_filename ("3. John_Doe - CV.pdf".toList) = "John Doe".toList := by decide

example : clean_person_name_from_filename ("ab1cv".toList) = "Ab Cv".toList := by decide

example : clean_person_name_from_filename ("Ab Cv".toList) = "Ab".toList := by decide

example : clean_person_name_from_filename ("12. Siti_Rahma (2) - Curriculum Vitae.pdf".toList) = "Siti Rahma".toList := by decide

example : extract_ipk ("IPK: 3.75".toList) = some 375 := by decide

example : extract_ipk ("IPK: 5.00".toList) = none := by decide

example : extract_ipk ("IPK: 3.5".toList) = none := by decide

example : extract_ipk ("IPK: 1.50 GPA: 3.20".toList) = some 320 := by decide

example : extract_ipk ("nilai 3,40 dari 4".toList) = some 340 := by decide

example : extract_ipk ("Indeks Prestasi Kumulatif 3.91".toList) = some 391 := by decide

example : extract_ipk ("telp 0812345".toList) = none := by decide

example : extract_jurusan ("information systems".toList) = none := by decide

example : extract_jurusan ("Jurusan: information systems".toList) = some ("Sistem Informasi".toList) := by decide

example : extract_jurusan ("Jurusan: Akuntansi".toList) = some ("Akuntansi".toList) := by decide

example : extract_jurusan ("s1 Sistem Informasi Universitas Dinamika".toList) = some ("S1 Sistem Informasi".toList) := by decide

example : extract_jurusan ("Jurusan: ipa".toList) = none := by decide

example : extract_jurusan ("Program Studi Teknik Elektro, 2021".toList) = some ("Teknik Elektro".toList) := by decide

example : extract_semester ("Semester: 6".toList) = some 6 := by decide

example : extract_semester ("semester 15".toList) = none := by decide

example : extract_semester ("mahasiswa 7 semester".toList) = some 7 := by decide

example : extract_semester ("sem 12".toList) = some 12 := by decide

example : extract_semester ("tahun 2021".toList) = none := by decide

example : extract_skills ("Keahlian: Python, MySQL dan Git".toList) =
    ["Git".toList, "Mysql".toList, "Python".toList] := by decide

example : extract_skills ("halo".toList) = [] := by decide

example : extract_skills ("menguasai rest api dan node.js".toList) =
    ["Nodejs".toList, "REST".toList] := by decide

example : (extract_from_cv ("x.pdf".toList) ("IPK: 3.75 Jurusan: Akuntansi".toList) []).extraction_status = "Success".toList := by decide

example : (extract_from_cv ("x.pdf".toList) ("Jurusan: Akuntansi".toList) []).extraction_status = "Partial - Missing: IPK".toList := by decide

example : (extract_from_cv ("x.pdf".toList) ("halo".toList) []).extraction_status = "Partial - Missing: IPK, Jurusan".toList := by decide

-- ==============================
-- Claims
-- ==============================

/-- C1: for every record assembled by extract_from_cv, the status is
Success if and only if both the GPA field and the major field are present;
moreover the status is a function of text emptiness and those two fields
alone, so semester and skills never affect it. -/
theorem C1_status_success_iff_required_fields (pdf_path text now : List Char) :
    ((extract_from_cv pdf_path text now).extraction_status = "Success".toList ↔
      (extract_from_cv pdf_path text now).ipk.isSome = true ∧
      (extract_from_cv pdf_path text now).jurusan.isSome = true) ∧
    (extract_from_cv pdf_path text now).extraction_status =
      statusOf (text = []) (extract_from_cv pdf_path text now).ipk
        (extract_from_cv pdf_path text now).jurusan := by
  unfold extract_from_cv statusOf
  by_cases ht : text = []
  · subst ht
    simp
  · simp only [ht, if_neg, if_false]
    cases h1 : extract_ipk text <;> cases h2 : extract_jurusan text <;>
      simp [h1, h2]

/-- C3: for every document with non-empty text, a missing GPA with major
present gives a Partial status naming exactly the GPA field, and missing
GPA and major gives a Partial status naming the GPA field then the major
field in that fixed order. -/
theorem C3_partial_missing_fields_order (pdf_path text now : List Char) (h : text ≠ []) :
    ((extract_from_cv pdf_path text now).ipk = none →
      (extract_from_cv pdf_path text now).jurusan ≠ none →
      (extract_from_cv pdf_path text now).extraction_status = "Partial - Missing: IPK".toList) ∧
    ((extract_from_cv pdf_path text now).ipk = none →
      (extract_from_cv pdf_path text now).jurusan = none →
      (extract_from_cv pdf_path text now).extraction_status = "Partial - Missing: IPK, Jurusan".toList) := by
  unfold extract_from_cv
  simp only [h, if_neg, if_false]
  cases h1 : extract_ipk text <;> cases h2 : extract_jurusan text <;>
    simp [h1, h2] <;> decide

/-- Witness for C3 at concrete documents: a text whose major is found but
whose GPA is not, and a text where neither is found. -/
theorem C3_partial_missing_fields_order_witness :
    (extract_from_cv ("x.pdf".toList) ("Jurusan: Akuntansi".toList) []).extraction_status =
      "Partial - Missing: IPK".toList ∧
    (extract_from_cv ("y.pdf".toList) ("halo".toList) []).extraction_status =
      "Partial - Missing: IPK, Jurusan".toList :=
  ⟨(C3_partial_missing_fields_order _ _ _ (by decide)).1 (by decide) (by decide),
   (C3_partial_missing_fields_order _ _ _ (by decide)).2 (by decide) (by decide)⟩

/-- C4: a document whose text acquisition yields the empty string produces
the Failed record: every extracted field absent or empty, the status the
Failed message, and the name still derived from the filename. -/
theorem C4_empty_text_failed_record (pdf_path now : List Char) :
    extract_from_cv pdf_path [] now =
      { nama := clean_person_name_from_filename pdf_path, ipk := none,
        jurusan := none, semester := none, skills := [], skill_count := 0,
        extraction_status := "Failed - No text extracted".toList,
        extraction_date := now } := rfl

/-- C5: the batch processor yields exactly one row per enumerated pdf
document; row k is the pipeline record of document k when the pipeline
returns, and the substituted error record carrying the fault message and
the filename-derived name when the pipeline raises, independently of the
other documents. -/
theorem C5_fault_isolated_one_row_per_document
    (run : List Char → Except (List Char) Record)
    (folder : List Char) (entries : List (List Char)) (now : List Char) :
    (process_cv_folder run folder entries now).length = (pdfFilesOf entries).length ∧
    (∀ k : Nat,
      (process_cv_folder run folder entries now)[k]? =
        ((pdfFilesOf entries)[k]?).map
          (fun pdf_file =>
            match run (folder ++ '/' :: pdf_file) with
            | Except.ok r => r
            | Except.error e => errorRecord pdf_file e now)) ∧
    (∀ (k : Nat) (pdf_file e : List Char),
      (pdfFilesOf entries)[k]? = some pdf_file →
      run (folder ++ '/' :: pdf_file) = Except.error e →
      (process_cv_folder run folder entries now)[k]? = some (errorRecord pdf_file e now)) := by
  refine ⟨by simp [process_cv_folder], ?_, ?_⟩
  · intro k
    simp [process_cv_folder, List.getElem?_map]
  · intro k pdf_file e hf hrun
    simp [process_cv_folder, List.getElem?_map, hf, hrun]

/-- Witness for C5: with a concrete two-document batch whose first document
faults, row zero is the substituted error record and the report still has
one row per document. -/
theorem C5_fault_isolated_one_row_per_document_witness :
    (process_cv_folder demoRun ("cv".toList) ["a.pdf".toList, "b.pdf".toList] [])[0]? =
      some (errorRecord ("a.pdf".toList) ("boom".toList) []) ∧
    (process_cv_folder demoRun ("cv".toList) ["a.pdf".toList, "b.pdf".toList] []).length = 2 :=
  ⟨(C5_fault_isolated_one_row_per_document demoRun _ _ _).2.2 0 _ _ (by decide) rfl,
   by rw [(C5_fault_isolated_one_row_per_document demoRun ("cv".toList)
        ["a.pdf".toList, "b.pdf".toList] []).1]; decide⟩

theorem firstSome_eq_some {α β : Type} (f : α → Option β) (l : List α) (y : β)
    (h : firstSome f l = some y) : ∃ x ∈ l, f x = some y := by
  induction l with
  | nil => simp [firstSome] at h
  | cons a l ih =>
    unfold firstSome at h
    cases hf : f a with
    | some z =>
      rw [hf] at h
      exact ⟨a, by simp, by rw [hf]; exact h⟩
    | none =>
      rw [hf] at h
      obtain ⟨x, hx, hfx⟩ := ih h
      exact ⟨x, by simp [hx], hfx⟩

theorem capCandidates_shape (s : List Char) (cap rest : List Char)
    (h : (cap, rest) ∈ capCandidates s) : ipkCapShape cap := by
  unfold capCandidates at h
  split at h
  next d sep a b rest2 =>
    split at h
    next hc =>
      simp only [Bool.and_eq_true, Bool.or_eq_true, decide_eq_true_eq] at hc
      have hd : '0' ≤ d ∧ d ≤ '4' := by tauto
      have hsep : sep = '.' ∨ sep = ',' := by tauto
      have ha : isDigitCh a = true := by tauto
      have hb : isDigitCh b = true := by tauto
      split at h
      next e rest3 =>
        split at h
        next he =>
          simp only [List.mem_cons, List.mem_singleton, List.not_mem_nil, or_false,
            Prod.mk.injEq] at h
          rcases h with ⟨h1, _⟩ | ⟨h1, _⟩
          · exact ⟨d, sep, a, b, hd, hsep, ha, hb, Or.inr ⟨e, he, h1⟩⟩
          · exact ⟨d, sep, a, b, hd, hsep, ha, hb, Or.inl h1⟩
        next he =>
          simp only [List.mem_singleton, List.not_mem_nil, Prod.mk.injEq,
            List.mem_cons, or_false] at h
          exact ⟨d, sep, a, b, hd, hsep, ha, hb, Or.inl h.1⟩
      next hne =>
        simp only [List.mem_singleton, List.not_mem_nil, Prod.mk.injEq,
          List.mem_cons, or_false] at h
        exact ⟨d, sep, a, b, hd, hsep, ha, hb, Or.inl h.1⟩
    next hc => simp at h
  next => simp at h

theorem capNumber_shape (s : List Char) (cap rest : List Char)
    (h : capNumber s = some (cap, rest)) : ipkCapShape cap := by
  unfold capNumber at h
  cases hc : capCandidates s with
  | nil => rw [hc] at h; simp at h
  | cons p ps =>
    rw [hc] at h
    simp only [List.head?] at h
    have hp : p = (cap, rest) := by
      cases h
      rfl
    exact capCandidates_shape s cap rest (by rw [hc, hp]; simp)

theorem ipkLabelTry_shape (kw s : List Char) (cap : List Char) (rest : List Char)
    (h : ipkLabelTry kw s = some (cap, rest)) : ipkCapShape cap := by
  unfold ipkLabelTry at h
  cases hm : matchCIrest kw s with
  | none => rw [hm] at h; cases h
  | some r1 =>
    rw [hm] at h
    obtain ⟨x, _, hfx⟩ := firstSome_eq_some _ _ _ h
    exact capNumber_shape x cap rest hfx

theorem indeksTry_shape (s : List Char) (cap : List Char) (rest : List Char)
    (h : indeksTry s = some (cap, rest)) : ipkCapShape cap := by
  unfold indeksTry at h
  cases hm : matchCIrest ("indeks".toList) s with
  | none => rw [hm] at h; cases h
  | some r1 =>
    rw [hm] at h
    cases r1 with
    | nil => cases h
    | cons c cs =>
      simp only at h
      split at h
      next =>
        cases hp : matchCIrest ("prestasi".toList) ((c :: cs).dropWhile isSpaceCh) with
        | none => rw [hp] at h; cases h
        | some r2 =>
          rw [hp] at h
          obtain ⟨r, _, hr⟩ := firstSome_eq_some _ _ _ h
          obtain ⟨x, _, hfx⟩ := firstSome_eq_some _ _ _ hr
          exact capNumber_shape x cap rest hfx
      next => cases h

theorem ratioTry_shape (s : List Char) (cap : List Char) (rest : List Char)
    (h : ratioTry s = some (cap, rest)) : ipkCapShape cap := by
  unfold ratioTry at h
  obtain ⟨cr, hmem, hf⟩ := firstSome_eq_some _ _ _ h
  cases ht : ratioTailTry cr.2 with
  | none => rw [ht] at hf; cases hf
  | some r4 =>
    rw [ht] at hf
    have : cr.1 = cap := by cases hf; rfl
    exact this ▸ capCandidates_shape s cr.1 cr.2 (by simpa using hmem)

theorem scanCaps_mem {β : Type} (needB : Bool)
    (tryAt : List Char → Option (β × List Char)) (P : β → Prop)
    (hP : ∀ s cap rest, tryAt s = some (cap, rest) → P cap) :
    ∀ (fuel : Nat) (prevW : Bool) (s : List Char) (cap : β),
      cap ∈ scanCaps needB tryAt fuel prevW s → P cap := by
  intro fuel
  induction fuel with
  | zero => intro _ _ _ h; simp [scanCaps] at h
  | succ n ih =>
    intro prevW s cap h
    cases s with
    | nil => simp [scanCaps] at h
    | cons c cs =>
      unfold scanCaps at h
      by_cases hb : (needB && prevW) = true
      · rw [if_pos hb] at h
        exact ih _ _ _ h
      · rw [if_neg hb] at h
        cases htry : tryAt (c :: cs) with
        | some pr =>
          obtain ⟨cap1, rest1⟩ := pr
          rw [htry] at h
          simp only at h
          rcases List.mem_cons.mp h with h1 | h2
          · exact h1 ▸ hP _ _ _ htry
          · exact ih _ _ _ h2
        | none =>
          rw [htry] at h
          exact ih _ _ _ h

theorem findIpkAll_shape (text : List Char) (cap : List Char)
    (h : cap ∈ findIpkAll text) : ipkCapShape cap := by
  unfold findIpkAll at h
  rcases List.mem_append.mp h with h1 | h4
  · rcases List.mem_append.mp h1 with h2 | h3
    · rcases List.mem_append.mp h2 with h5 | h6
      · exact scanCaps_mem _ _ _ (ipkLabelTry_shape _) _ _ _ _ h5
      · exact scanCaps_mem _ _ _ (ipkLabelTry_shape _) _ _ _ _ h6
    · exact scanCaps_mem _ _ _ indeksTry_shape _ _ _ _ h3
  · exact scanCaps_mem _ _ _ ratioTry_shape _ _ _ _ h4

theorem pickIpk_eq_some (caps : List (List Char)) (n : Nat)
    (h : pickIpk caps = some n) :
    ∃ cap ∈ caps, ∃ v, parseIpkCap cap = some v ∧ 2000 ≤ v ∧ v ≤ 4000 ∧ n = roundHund v := by
  induction caps with
  | nil => simp [pickIpk] at h
  | cons cap caps ih =>
    unfold pickIpk at h
    cases hp : parseIpkCap cap with
    | some v =>
      simp only [hp] at h
      split at h
      next hv =>
        refine ⟨cap, by simp, v, hp, hv.1, hv.2, ?_⟩
        injection h with h
        exact h.symm
      next hv =>
        obtain ⟨c, hc, hrest⟩ := ih h
        exact ⟨c, by simp [hc], hrest⟩
    | none =>
      simp only [hp] at h
      obtain ⟨c, hc, hrest⟩ := ih h
      exact ⟨c, by simp [hc], hrest⟩

/-- C2: extract_ipk only ever returns a value in the closed range from two
to four, obtained by rounding to two decimals a matched value that passed
the range guard; out-of-range matches are discarded with the cascade
continuing, a text whose only candidate is the out-of-range 5.00 yields an
absent GPA, and a later in-range match is still found after a discarded
out-of-range one. -/
theorem C2_gpa_range_guard :
    (∀ text n, extract_ipk text = some n →
      (2 ≤ gpaVal n ∧ gpaVal n ≤ 4) ∧
      ∃ cap ∈ findIpkAll text, ∃ v, parseIpkCap cap = some v ∧
        2000 ≤ v ∧ v ≤ 4000 ∧ n = roundHund v) ∧
    extract_ipk ("IPK: 5.00".toList) = none ∧
    extract_ipk ("IPK: 1.50 GPA: 3.20".toList) = some 320 := by
  refine ⟨?_, by decide, by decide⟩
  intro text n h
  obtain ⟨cap, hcap, v, hv, h1, h2, h3⟩ := pickIpk_eq_some _ _ h
  have hn1 : 200 ≤ n := by
    rw [h3]
    unfold roundHund
    omega
  have hn2 : n ≤ 400 := by
    rw [h3]
    unfold roundHund
    omega
  refine ⟨⟨?_, ?_⟩, cap, hcap, v, hv, h1, h2, h3⟩
  · rw [gpaVal, le_div_iff₀ (by norm_num : (0:ℚ) < 100)]
    have hq : (200 : ℚ) ≤ (n : ℚ) := by exact_mod_cast hn1
    linarith
  · rw [gpaVal, div_le_iff₀ (by norm_num : (0:ℚ) < 100)]
    have hq : (n : ℚ) ≤ (400 : ℚ) := by exact_mod_cast hn2
    linarith

/-- Witness for C2 at the concrete mixed text: the value three point two is
returned and lies within the range with its rounding certificate. -/
theorem C2_gpa_range_guard_witness :
    (2 ≤ gpaVal 320 ∧ gpaVal 320 ≤ 4) ∧
    ∃ cap ∈ findIpkAll ("IPK: 1.50 GPA: 3.20".toList), ∃ v, parseIpkCap cap = some v ∧
      2000 ≤ v ∧ v ≤ 4000 ∧ 320 = roundHund v :=
  C2_gpa_range_guard.1 ("IPK: 1.50 GPA: 3.20".toList) 320 C2_gpa_range_guard.2.2

/-- C9: every capture of the GPA patterns has a single integer digit zero
to four and exactly two or three fractional digits, so the in-range text
with a single fractional digit after the IPK label yields an absent GPA. -/
theorem C9_single_fraction_digit_rejected :
    (∀ text cap, cap ∈ findIpkAll text → ipkCapShape cap) ∧
    extract_ipk ("IPK: 3.5".toList) = none :=
  ⟨findIpkAll_shape, by decide⟩

/-- Witness for C9 at a concrete text whose capture list is computed. -/
theorem C9_single_fraction_digit_rejected_witness : ipkCapShape ("3.75".toList) :=
  C9_single_fraction_digit_rejected.1 ("IPK: 3.75".toList) ("3.75".toList) (by decide)

-- ==============================
-- Major claims C6 and C10
-- ==============================

/-- Counterexample to C6: on the bare synonym phrase with no label and no
degree token, extract_jurusan does not return the canonical name with an
assumed default degree; it finds nothing, so no default-degree policy is in
effect. -/
theorem C6_counterexample :
    ¬ extract_jurusan ("information systems".toList) = some ("S1 Sistem Informasi".toList) := by
  decide

/-- C6 amended: extract_jurusan has no default-degree behavior and no
policy switch: a bare synonym phrase with no label and no degree token
yields an absent major; under a label anchor the canonical name is emitted
alone, without any degree level; the degree level appears exactly when a
degree token is matched in the text. -/
theorem C6_amended_no_default_degree :
    extract_jurusan ("information systems".toList) = none ∧
    extract_jurusan ("Jurusan: information systems".toList) = some ("Sistem Informasi".toList) ∧
    extract_jurusan ("S1 information systems".toList) = some ("S1 Sistem Informasi".toList) := by
  decide

theorem startsWith_self (s : List Char) : startsWith s s = true := by
  induction s with
  | nil => rfl
  | cons c cs ih => simp [startsWith, ih]

theorem containsSub_self (s : List Char) : containsSub s s = true := by
  cases s with
  | nil => rfl
  | cons c cs => simp [containsSub, startsWith_self]

/-- C10: the major extractor is not restricted to the synonym table: any
captured phrase whose truncated and capped form matches no synonym entry
and is not a school track token is returned title-cased as it stands, and
concretely the label text naming an accounting major absent from the table
yields that title-cased phrase, not an absent major. -/
theorem C10_non_table_major_kept :
    (∀ phrase : List Char,
      majorPhrase1 phrase ≠ [] →
      (∀ kv ∈ MAJOR_NORMALIZE, containsSub kv.1 (lowerStr (majorPhrase2 phrase)) = false) →
      SMA_TRACK.contains (lowerStr (titleJoin (majorPhrase2 phrase))) = false →
      _normalize_major_phrase phrase = some (titleJoin (majorPhrase2 phrase))) ∧
    extract_jurusan ("Jurusan: Akuntansi".toList) = some ("Akuntansi".toList) ∧
    "Akuntansi".toList ∉ MAJOR_NORMALIZE.map Prod.snd := by
  refine ⟨?_, by decide, by decide⟩
  intro phrase h1 h2 h3
  unfold _normalize_major_phrase
  rw [if_neg h1]
  have hfind1 : MAJOR_NORMALIZE.find? (fun kv => containsSub kv.1 (lowerStr (majorPhrase2 phrase))) = none :=
    List.find?_eq_none.mpr (fun kv hkv => by simp [h2 kv hkv])
  have hfind2 : MAJOR_NORMALIZE.find? (fun kv => kv.1 == lowerStr (majorPhrase2 phrase)) = none := by
    refine List.find?_eq_none.mpr (fun kv hkv => ?_)
    simp only [beq_iff_eq]
    intro he
    have := h2 kv hkv
    rw [he, containsSub_self] at this
    cases this
  simp only [hfind1, hfind2]
  rw [if_neg (by simpa using h3)]

/-- Witness for C10: the accounting phrase passes the three conditions and
is returned title-cased. -/
theorem C10_non_table_major_kept_witness :
    _normalize_major_phrase ("Akuntansi".toList) = some ("Akuntansi".toList) := by
  rw [C10_non_table_major_kept.1 ("Akuntansi".toList) (by decide) (by decide) (by decide)]
  decide

-- ==============================
-- Order lemmas for the skills claim C7
-- ==============================

theorem ltStr_irrefl (x : List Char) : ltStr x x = false := by
  induction x with
  | nil => rfl
  | cons c cs ih => simp [ltStr, ih]

theorem ltStr_trans : ∀ (x y z : List Char),
    ltStr x y = true → ltStr y z = true → ltStr x z = true := by
  intro x
  induction x with
  | nil =>
    intro y z h1 h2
    cases y with
    | nil => simp [ltStr] at h1
    | cons b bs =>
      cases z with
      | nil => simp [ltStr] at h2
      | cons c cs => simp [ltStr]
  | cons a xs ih =>
    intro y z h1 h2
    cases y with
    | nil => simp [ltStr] at h1
    | cons b bs =>
      cases z with
      | nil => simp [ltStr] at h2
      | cons c cs =>
        unfold ltStr at h1 h2 ⊢
        rcases lt_trichotomy a b with hab | hab | hab
        · rcases lt_trichotomy b c with hbc | hbc | hbc
          · simp [lt_trans hab hbc]
          · subst hbc
            simp [hab]
          · rw [if_neg (asymm hbc), if_pos hbc] at h2
            cases h2
        · subst hab
          rw [if_neg (lt_irrefl a), if_neg (lt_irrefl a)] at h1
          rcases lt_trichotomy a c with hac | hac | hac
          · simp [hac]
          · subst hac
            rw [if_neg (lt_irrefl a), if_neg (lt_irrefl a)] at h2 ⊢
            exact ih bs cs h1 h2
          · rw [if_neg (asymm hac), if_pos hac] at h2
            cases h2
        · rw [if_neg (asymm hab), if_pos hab] at h1
          cases h1

theorem ltStr_total : ∀ (x y : List Char),
    ltStr x y = false → x ≠ y → ltStr y x = true := by
  intro x
  induction x with
  | nil =>
    intro y h1 h2
    cases y with
    | nil => exact absurd rfl h2
    | cons b bs => simp [ltStr] at h1
  | cons a xs ih =>
    intro y h1 h2
    cases y with
    | nil => rfl
    | cons b bs =>
      unfold ltStr at h1 ⊢
      rcases lt_trichotomy a b with hab | hab | hab
      · rw [if_pos hab] at h1
        cases h1
      · subst hab
        rw [if_neg (lt_irrefl a), if_neg (lt_irrefl a)] at h1 ⊢
        exact ih bs h1 (fun he => h2 (by rw [he]))
      · rw [if_pos hab]

theorem mem_insSorted : ∀ (l : List (List Char)) (x z : List Char),
    z ∈ insSorted x l → z = x ∨ z ∈ l := by
  intro l
  induction l with
  | nil =>
    intro x z h
    simp [insSorted] at h
    exact Or.inl h
  | cons y ys ih =>
    intro x z h
    unfold insSorted at h
    split at h
    next =>
      rcases List.mem_cons.mp h with h1 | h1
      · exact Or.inl h1
      · exact Or.inr h1
    next =>
      split at h
      next => exact Or.inr h
      next =>
        rcases List.mem_cons.mp h with h1 | h1
        · exact Or.inr (h1 ▸ List.mem_cons_self y ys)
        · rcases ih x z h1 with h2 | h2
          · exact Or.inl h2
          · exact Or.inr (List.mem_cons_of_mem y h2)

theorem pairwise_insSorted (x : List Char) : ∀ (l : List (List Char)),
    l.Pairwise (fun a b => ltStr a b = true) →
    (insSorted x l).Pairwise (fun a b => ltStr a b = true) := by
  intro l
  induction l with
  | nil =>
    intro _
    simp [insSorted]
  | cons y ys ih =>
    intro h
    rcases List.pairwise_cons.mp h with ⟨hy, hys⟩
    unfold insSorted
    split
    next hlt =>
      refine List.pairwise_cons.mpr ⟨?_, h⟩
      intro z hz
      rcases List.mem_cons.mp hz with rfl | hz'
      · exact hlt
      · exact ltStr_trans _ _ _ hlt (hy z hz')
    next hnlt =>
      split
      next => exact h
      next hne =>
        have hyx : ltStr y x = true :=
          ltStr_total x y (Bool.eq_false_iff.mpr hnlt) hne
        refine List.pairwise_cons.mpr ⟨?_, ih hys⟩
        intro z hz
        rcases mem_insSorted ys x z hz with rfl | hz'
        · exact hyx
        · exact hy z hz'

theorem pairwise_sortedInsertAll (ws : List (List Char)) :
    (sortedInsertAll ws).Pairwise (fun a b => ltStr a b = true) := by
  unfold sortedInsertAll
  have hgen : ∀ (vs : List (List Char)) (acc : List (List Char)),
      acc.Pairwise (fun a b => ltStr a b = true) →
      (vs.foldl (fun a w => insSorted w a) acc).Pairwise (fun a b => ltStr a b = true) := by
    intro vs
    induction vs with
    | nil => intro acc h; exact h
    | cons w vs ih =>
      intro acc h
      exact ih _ (pairwise_insSorted w acc h)
  exact hgen ws [] (by simp)

theorem nodup_sortedInsertAll (ws : List (List Char)) : (sortedInsertAll ws).Nodup :=
  (pairwise_sortedInsertAll ws).imp
    (fun hab => fun he => by rw [he, ltStr_irrefl] at hab; cases hab)

/-- C7: for every input text the skills list is strictly sorted and free of
duplicates, and in every assembled record the skill count equals the length
of that deduplicated list, with zero and an empty cell for empty-text and
error records. -/
theorem C7_skills_sorted_dedup_count :
    (∀ text, (extract_skills text).Pairwise (fun a b => ltStr a b = true) ∧
      (extract_skills text).Nodup) ∧
    (∀ pdf_path text now,
      (extract_from_cv pdf_path text now).skill_count = (reportedSkills text).length ∧
      (extract_from_cv pdf_path text now).skills =
        (if reportedSkills text = [] then [] else joinCommaSp (reportedSkills text)) ∧
      (reportedSkills text).Nodup) ∧
    (∀ pdf_file e now, (errorRecord pdf_file e now).skill_count = 0 ∧
      (errorRecord pdf_file e now).skills = []) := by
  have hps : ∀ text, (extract_skills text).Pairwise (fun a b => ltStr a b = true) := by
    intro text
    unfold extract_skills _collect_skills_from_text
    exact pairwise_sortedInsertAll _
  have hnd : ∀ text, (extract_skills text).Nodup := by
    intro text
    unfold extract_skills _collect_skills_from_text
    exact nodup_sortedInsertAll _
  refine ⟨fun text => ⟨hps text, hnd text⟩, ?_, by intro f e n; exact ⟨rfl, rfl⟩⟩
  intro pdf_path text now
  unfold extract_from_cv reportedSkills
  by_cases ht : text = []
  · simp [ht]
  · simp only [if_neg ht]
    simp [hnd text]

-- ==============================
-- List lemmas for the name-cleanup claim C8
-- ==============================

theorem takeWhile_all {α : Type} (p : α → Bool) :
    ∀ (l : List α), (∀ c ∈ l, p c = true) → l.takeWhile p = l := by
  intro l
  induction l with
  | nil => intro _; rfl
  | cons a l ih =>
    intro h
    have hpa := h a (List.mem_cons_self a l)
    simp [List.takeWhile_cons, hpa, ih (fun c hc => h c (List.mem_cons_of_mem a hc))]

theorem dropWhile_all {α : Type} (p : α → Bool) :
    ∀ (l : List α), (∀ c ∈ l, p c = true) → l.dropWhile p = [] := by
  intro l
  induction l with
  | nil => intro _; rfl
  | cons a l ih =>
    intro h
    have hpa := h a (List.mem_cons_self a l)
    simp [List.dropWhile_cons, hpa, ih (fun c hc => h c (List.mem_cons_of_mem a hc))]

theorem map_id_of {α : Type} (f : α → α) :
    ∀ (l : List α), (∀ c ∈ l, f c = c) → l.map f = l := by
  intro l
  induction l with
  | nil => intro _; rfl
  | cons a l ih =>
    intro h
    simp [h a (List.mem_cons_self a l), ih (fun c hc => h c (List.mem_cons_of_mem a hc))]

theorem map_eq_map_of {α β : Type} (f g : α → β) :
    ∀ (l : List α), (∀ c ∈ l, f c = g c) → l.map f = l.map g := by
  intro l
  induction l with
  | nil => intro _; rfl
  | cons a l ih =>
    intro h
    simp [h a (List.mem_cons_self a l), ih (fun c hc => h c (List.mem_cons_of_mem a hc))]

theorem splitAll_ne_nil : ∀ (s : List Char), splitAll s ≠ [] := by
  intro s
  induction s with
  | nil => simp [splitAll]
  | cons c cs ih =>
    unfold splitAll
    by_cases hc : isSpaceCh c = true
    · simp [hc]
    · simp only [hc]
      cases hr : splitAll cs with
      | nil => exact absurd hr ih
      | cons w ws => simp

theorem splitAll_chars : ∀ (s : List Char) (w : List Char), w ∈ splitAll s →
    ∀ c ∈ w, c ∈ s ∧ isSpaceCh c = false := by
  intro s
  induction s with
  | nil =>
    intro w hw c hc
    simp [splitAll] at hw
    subst hw
    cases hc
  | cons a s ih =>
    intro w hw c hc
    unfold splitAll at hw
    by_cases hsp : isSpaceCh a = true
    · simp only [hsp, if_pos] at hw
      rcases List.mem_cons.mp hw with rfl | hw'
      · cases hc
      · have := ih w hw' c hc
        exact ⟨List.mem_cons_of_mem a this.1, this.2⟩
    · simp only [hsp, if_neg, if_false] at hw
      cases hr : splitAll s with
      | nil => exact absurd hr (splitAll_ne_nil s)
      | cons w1 ws =>
        rw [hr] at hw
        simp only at hw
        rcases List.mem_cons.mp hw with rfl | hw'
        · rcases List.mem_cons.mp hc with rfl | hc'
          · exact ⟨List.mem_cons_self c s, Bool.eq_false_iff.mpr hsp⟩
          · have := ih w1 (by rw [hr]; exact List.mem_cons_self w1 ws) c hc'
            exact ⟨List.mem_cons_of_mem a this.1, this.2⟩
        · have := ih w (by rw [hr]; exact List.mem_cons_of_mem w1 hw') c hc
          exact ⟨List.mem_cons_of_mem a this.1, this.2⟩

theorem pysplit_props (s : List Char) (w : List Char) (hw : w ∈ pysplit s) :
    w ≠ [] ∧ ∀ c ∈ w, c ∈ s ∧ isSpaceCh c = false := by
  unfold pysplit at hw
  rcases List.mem_filter.mp hw with ⟨hmem, hne⟩
  exact ⟨by simpa using hne, splitAll_chars s w hmem⟩

theorem joinSp_chars : ∀ (ts : List (List Char)),
    (∀ t ∈ ts, ∀ c ∈ t, isAlphaCh c = true) →
    ∀ c ∈ joinSp ts, isAlphaCh c = true ∨ c = ' ' := by
  intro ts
  induction ts with
  | nil => intro _ c hc; cases hc
  | cons t ts ih =>
    intro h c hc
    cases ts with
    | nil =>
      exact Or.inl (h t (List.mem_cons_self t []) c (by simpa [joinSp] using hc))
    | cons t2 ts2 =>
      rw [show joinSp (t :: t2 :: ts2) = t ++ ' ' :: joinSp (t2 :: ts2) from rfl] at hc
      rcases List.mem_append.mp hc with h1 | h1
      · exact Or.inl (h t (List.mem_cons_self t _) c h1)
      · rcases List.mem_cons.mp h1 with rfl | h2
        · exact Or.inr rfl
        · exact ih (fun u hu => h u (List.mem_cons_of_mem t hu)) c h2

theorem joinSp_reverse_head : ∀ (ts : List (List Char)), ts ≠ [] →
    (∀ t ∈ ts, t ≠ [] ∧ ∀ c ∈ t, isAlphaCh c = true) →
    ∃ a rest, (joinSp ts).reverse = a :: rest ∧ isAlphaCh a = true := by
  intro ts
  induction ts with
  | nil => intro h; exact absurd rfl h
  | cons t ts ih =>
    intro _ h
    cases ts with
    | nil =>
      obtain ⟨hne, halpha⟩ := h t (List.mem_cons_self t [])
      cases hr : t.reverse with
      | nil => exact absurd (by simpa using hr) hne
      | cons a rest =>
        refine ⟨a, rest, by simp [joinSp, hr], ?_⟩
        exact halpha a (by rw [← List.mem_reverse, hr]; exact List.mem_cons_self a rest)
    | cons t2 ts2 =>
      obtain ⟨a, rest, hrev, halpha⟩ :=
        ih (by simp) (fun u hu => h u (List.mem_cons_of_mem t hu))
      refine ⟨a, rest ++ ' ' :: t.reverse, ?_, halpha⟩
      rw [show joinSp (t :: t2 :: ts2) = t ++ ' ' :: joinSp (t2 :: ts2) from rfl]
      rw [List.reverse_append, List.reverse_cons, hrev]
      simp

-- ==============================
-- Stage identity lemmas for the name-cleanup claim C8
-- ==============================

theorem basename_eq_self (s : List Char) (h : ∀ c ∈ s, c ≠ '/') : basename s = s := by
  unfold basename
  rw [takeWhile_all _ _ (fun c hc => by
    simp only [bne_iff_ne, ne_eq, decide_eq_true_eq]
    exact h c (List.mem_reverse.mp hc)), List.reverse_reverse]

theorem splitextRoot_eq_self (s : List Char) (h : ∀ c ∈ s, c ≠ '.') : splitextRoot s = s := by
  unfold splitextRoot
  rw [dropWhile_all _ _ (fun c hc => by
    simp only [bne_iff_ne, ne_eq, decide_eq_true_eq]
    exact h c (List.mem_reverse.mp hc))]

theorem stripLeadNumDot_eq_self (a : Char) (s : List Char)
    (ha : isSpaceCh a = false) (hd : isDigitCh a = false) :
    stripLeadNumDot (a :: s) = a :: s := by
  unfold stripLeadNumDot
  rw [List.dropWhile_cons]
  simp only [ha, if_false, Bool.false_eq_true]
  rw [List.takeWhile_cons]
  simp only [hd, if_false, Bool.false_eq_true]
  rfl

theorem splitSepGo_eq_self (isSep : Char → Bool) :
    ∀ (s : List Char), (∀ c ∈ s, isSep c = false) → splitSepGo isSep s = s := by
  intro s
  induction s with
  | nil => intro _; rfl
  | cons c cs ih =>
    intro h
    have hrec := ih (fun x hx => h x (List.mem_cons_of_mem c hx))
    unfold splitSepGo
    by_cases hsp : isSpaceCh c = true
    · rw [if_pos hsp]
      cases hd : (c :: cs).dropWhile isSpaceCh with
      | nil => rw [hrec]
      | cons x xs =>
        cases xs with
        | nil => rw [hrec]
        | cons y ys =>
          have hxmem : x ∈ c :: cs := by
            have hsub := List.dropWhile_sublist (p := isSpaceCh) (l := c :: cs)
            exact hsub.subset (by rw [hd]; exact List.mem_cons_self x _)
          simp [h x hxmem, hrec]
    · rw [if_neg hsp, hrec]

theorem parensGo_eq_self :
    ∀ (fuel : Nat) (s : List Char), (∀ c ∈ s, c ≠ '(') → parensGo fuel s = s := by
  intro fuel
  induction fuel with
  | zero => intro s _; rfl
  | succ n ih =>
    intro s h
    cases s with
    | nil => rfl
    | cons c cs =>
      have hc : parensTry (c :: cs) = none := by
        simp only [parensTry]
        rw [if_neg (h c (List.mem_cons_self c cs))]
      unfold parensGo
      rw [hc]
      show c :: parensGo n cs = c :: cs
      rw [ih cs (fun x hx => h x (List.mem_cons_of_mem c hx))]

theorem numSubGo_eq_self :
    ∀ (s : List Char) (b : Bool), (∀ c ∈ s, isDigitCh c = false) → numSubGo b s = s := by
  intro s
  induction s with
  | nil => intro b _; rfl
  | cons c cs ih =>
    intro b h
    unfold numSubGo
    rw [if_neg (by simp [h c (List.mem_cons_self c cs)])]
    rw [ih false (fun x hx => h x (List.mem_cons_of_mem c hx))]

theorem nonAlphaSub_eq_self (s : List Char)
    (h : ∀ c ∈ s, isAlphaCh c = true ∨ c = ' ') : nonAlphaSub s = s := by
  unfold nonAlphaSub
  refine map_id_of _ _ (fun c hc => ?_)
  rcases h c hc with h1 | h1
  · rw [if_pos (by simp [h1])]
  · subst h1
    rw [if_pos (by decide)]

theorem scGo_nil (b : Bool) : spaceCollapseGo b [] = [] := rfl

theorem scGo_cons (b : Bool) (c : Char) (l : List Char) :
    spaceCollapseGo b (c :: l) =
      if isSpaceCh c = true then
        (if b = true then spaceCollapseGo true l else ' ' :: spaceCollapseGo true l)
      else c :: spaceCollapseGo false l := rfl

theorem scGo_token :
    ∀ (t : List Char), t ≠ [] → (∀ c ∈ t, isSpaceCh c = false) →
    ∀ (rest : List Char) (b : Bool),
      spaceCollapseGo b (t ++ rest) = t ++ spaceCollapseGo false rest := by
  intro t
  induction t with
  | nil => intro hne; exact absurd rfl hne
  | cons c cs ih =>
    intro _ h rest b
    rw [List.cons_append, scGo_cons]
    rw [if_neg (by simp [h c (List.mem_cons_self c cs)])]
    cases hcs : cs with
    | nil => simp
    | cons d ds =>
      rw [← hcs, ih (by rw [hcs]; simp) (fun x hx => h x (List.mem_cons_of_mem c hx)) rest false]
      simp

theorem spaceCollapse_joinSp :
    ∀ (ts : List (List Char)), (∀ t ∈ ts, t ≠ [] ∧ ∀ c ∈ t, isSpaceCh c = false) →
    ∀ (b : Bool), spaceCollapseGo b (joinSp ts) = joinSp ts := by
  intro ts
  induction ts with
  | nil => intro _ b; rfl
  | cons t ts ih =>
    intro h b
    obtain ⟨hne, hsp⟩ := h t (List.mem_cons_self t ts)
    cases ts with
    | nil =>
      show spaceCollapseGo b t = t
      have hx := scGo_token t hne hsp [] b
      simpa [scGo_nil] using hx
    | cons t2 ts2 =>
      rw [show joinSp (t :: t2 :: ts2) = t ++ ' ' :: joinSp (t2 :: ts2) from rfl]
      rw [scGo_token t hne hsp _ b]
      congr 1
      rw [scGo_cons, if_pos (by decide : isSpaceCh ' ' = true), if_neg (by decide)]
      rw [ih (fun u hu => h u (List.mem_cons_of_mem t hu)) true]

theorem stripStr_eq_self (s : List Char) (a b : Char) (s1 s2 : List Char)
    (h1 : s = a :: s1) (h2 : s.reverse = b :: s2)
    (ha : isSpaceCh a = false) (hb : isSpaceCh b = false) : stripStr s = s := by
  unfold stripStr
  rw [h1, List.dropWhile_cons]
  simp only [ha, if_false, Bool.false_eq_true]
  rw [← h1, h2, List.dropWhile_cons]
  simp only [hb, if_false, Bool.false_eq_true]
  rw [← h2, List.reverse_reverse]

theorem splitAll_cons (c : Char) (cs : List Char) :
    splitAll (c :: cs) =
      if isSpaceCh c = true then [] :: splitAll cs
      else
        match splitAll cs with
        | w :: rest => (c :: w) :: rest
        | [] => [[c]] := rfl

theorem splitAll_token :
    ∀ (t : List Char), (∀ c ∈ t, isSpaceCh c = false) →
    ∀ (rest w : List Char) (ws : List (List Char)), splitAll rest = w :: ws →
      splitAll (t ++ rest) = (t ++ w) :: ws := by
  intro t
  induction t with
  | nil => intro _ rest w ws h; simpa using h
  | cons c cs ih =>
    intro h rest w ws hr
    rw [List.cons_append]
    unfold splitAll
    rw [ih (fun x hx => h x (List.mem_cons_of_mem c hx)) rest w ws hr]
    simp only [h c (List.mem_cons_self c cs), if_false, Bool.false_eq_true]
    rfl

theorem pysplit_joinSp :
    ∀ (ts : List (List Char)), (∀ t ∈ ts, t ≠ [] ∧ ∀ c ∈ t, isSpaceCh c = false) →
    pysplit (joinSp ts) = ts := by
  intro ts
  induction ts with
  | nil => intro _; rfl
  | cons t ts ih =>
    intro h
    obtain ⟨hne, hsp⟩ := h t (List.mem_cons_self t ts)
    cases ts with
    | nil =>
      show pysplit t = [t]
      have hs : splitAll (t ++ []) = (t ++ []) :: [] := splitAll_token t hsp [] [] [] rfl
      rw [List.append_nil] at hs
      unfold pysplit
      rw [hs]
      simp [hne]
    | cons t2 ts2 =>
      rw [show joinSp (t :: t2 :: ts2) = t ++ ' ' :: joinSp (t2 :: ts2) from rfl]
      have hrest : splitAll (' ' :: joinSp (t2 :: ts2)) = [] :: splitAll (joinSp (t2 :: ts2)) := by
        rw [splitAll_cons, if_pos (by decide)]
      cases hjs : splitAll (joinSp (t2 :: ts2)) with
      | nil => exact absurd hjs (splitAll_ne_nil _)
      | cons w ws =>
        rw [hjs] at hrest
        have hs := splitAll_token t hsp (' ' :: joinSp (t2 :: ts2)) [] (w :: ws) hrest
        have hih := ih (fun u hu => h u (List.mem_cons_of_mem t hu))
        unfold pysplit at hih ⊢
        rw [hjs] at hih
        rw [hs, List.append_nil, List.filter_cons_of_pos (by simp [hne]), hih]

theorem capitalizePy_idem (t : List Char) : capitalizePy (capitalizePy t) = capitalizePy t := by
  cases t with
  | nil => rfl
  | cons c cs =>
    show upCh (upCh c) :: (cs.map lowCh).map lowCh = upCh c :: cs.map lowCh
    rw [upCh_upCh, List.map_map]
    congr 1
    exact map_eq_map_of _ _ cs (fun x _ => lowCh_lowCh x)

theorem replaceSeps_eq_self (s : List Char)
    (h : ∀ c ∈ s, isAlphaCh c = true ∨ c = ' ') : replaceSeps s = s := by
  unfold replaceSeps
  refine map_id_of _ _ (fun c hc => ?_)
  rcases h c hc with h1 | h1
  · rw [if_neg]
    intro hor
    rcases hor with h2 | h2 | h2
    · exact alpha_ne_lit c '_' h1 (by decide) h2
    · exact alpha_ne_lit c '-' h1 (by decide) h2
    · exact alpha_ne_lit c '.' h1 (by decide) h2
  · subst h1
    rw [if_neg (by decide)]

theorem capitalizePy_chars (w : List Char) (h : ∀ c ∈ w, isAlphaCh c = true) :
    ∀ c ∈ capitalizePy w, isAlphaCh c = true := by
  cases w with
  | nil => intro c hc; cases hc
  | cons a ws =>
    intro c hc
    rcases List.mem_cons.mp hc with rfl | hc'
    · exact isAlphaCh_upCh a (h a (List.mem_cons_self a ws))
    · obtain ⟨x, hx, rfl⟩ := List.mem_map.mp hc'
      exact isAlphaCh_lowCh x (h x (List.mem_cons_of_mem a hx))

theorem nonAlphaSub_chars (u : List Char) :
    ∀ c ∈ nonAlphaSub u, isAlphaCh c = true ∨ isSpaceCh c = true := by
  intro c hc
  obtain ⟨x, _, rfl⟩ := List.mem_map.mp hc
  by_cases h : (isAlphaCh x || isSpaceCh x) = true
  · rw [if_pos h]
    exact Bool.or_eq_true_iff.mp h
  · rw [if_neg h]
    exact Or.inr (by decide)

theorem scGo_chars : ∀ (s : List Char) (b : Bool), ∀ c ∈ spaceCollapseGo b s,
    c = ' ' ∨ (c ∈ s ∧ isSpaceCh c = false) := by
  intro s
  induction s with
  | nil => intro b c hc; cases hc
  | cons d ds ih =>
    intro b c hc
    rw [scGo_cons] at hc
    by_cases hd : isSpaceCh d = true
    · rw [if_pos hd] at hc
      by_cases hb : b = true
      · rw [if_pos hb] at hc
        rcases ih true c hc with h1 | h1
        · exact Or.inl h1
        · exact Or.inr ⟨List.mem_cons_of_mem d h1.1, h1.2⟩
      · rw [if_neg hb] at hc
        rcases List.mem_cons.mp hc with rfl | hc'
        · exact Or.inl rfl
        · rcases ih true c hc' with h1 | h1
          · exact Or.inl h1
          · exact Or.inr ⟨List.mem_cons_of_mem d h1.1, h1.2⟩
    · rw [if_neg hd] at hc
      rcases List.mem_cons.mp hc with rfl | hc'
      · exact Or.inr ⟨List.mem_cons_self c ds, Bool.eq_false_iff.mpr hd⟩
      · rcases ih false c hc' with h1 | h1
        · exact Or.inl h1
        · exact Or.inr ⟨List.mem_cons_of_mem d h1.1, h1.2⟩

theorem stripStr_subset (s : List Char) : ∀ c ∈ stripStr s, c ∈ s := by
  intro c hc
  unfold stripStr at hc
  rw [List.mem_reverse] at hc
  have h1 := (List.dropWhile_sublist (p := isSpaceCh)
    (l := (s.dropWhile isSpaceCh).reverse)).subset hc
  rw [List.mem_reverse] at h1
  exact (List.dropWhile_sublist (p := isSpaceCh) (l := s)).subset h1

theorem finish_nice (u : List Char) :
    NiceName (if pysplit (stripStr (spaceCollapse (nonAlphaSub u))) = [] then []
      else joinSp (((pysplit (stripStr (spaceCollapse (nonAlphaSub u)))).take 6).map capitalizePy)) := by
  by_cases ht : pysplit (stripStr (spaceCollapse (nonAlphaSub u))) = []
  · rw [if_pos ht]
    exact Or.inl rfl
  · rw [if_neg ht]
    refine Or.inr ⟨((pysplit (stripStr (spaceCollapse (nonAlphaSub u)))).take 6).map capitalizePy,
      ?_, ?_, ?_, rfl⟩
    · cases hps : pysplit (stripStr (spaceCollapse (nonAlphaSub u))) with
      | nil => exact absurd hps ht
      | cons w ws => simp [hps]
    · rw [List.length_map, List.length_take]
      omega
    · intro t ht'
      obtain ⟨w, hw, rfl⟩ := List.mem_map.mp ht'
      have hw' : w ∈ pysplit (stripStr (spaceCollapse (nonAlphaSub u))) :=
        List.take_subset 6 _ hw
      obtain ⟨hwne, hwchars⟩ := pysplit_props _ w hw'
      have hwalpha : ∀ c ∈ w, isAlphaCh c = true := by
        intro c hc
        obtain ⟨hmem, hnsp⟩ := hwchars c hc
        have h2 := stripStr_subset _ c hmem
        rcases scGo_chars _ false c h2 with h3 | h3
        · rw [h3] at hnsp
          exact absurd hnsp (by decide)
        · rcases nonAlphaSub_chars u c h3.1 with h4 | h4
          · exact h4
          · rw [h4] at hnsp
            cases hnsp
      refine ⟨?_, capitalizePy_chars w hwalpha, capitalizePy_idem w⟩
      cases w with
      | nil => exact absurd rfl hwne
      | cons a ws => simp [capitalizePy]

theorem clean_nice (f : List Char) : NiceName (clean_person_name_from_filename f) := by
  unfold clean_person_name_from_filename
  exact finish_nice _

theorem clean_fixed (o : List Char) (hn : NiceName o) (hcv : cvSub o = o) :
    clean_person_name_from_filename o = o := by
  rcases hn with rfl | ⟨ts, hne, hlen, htok, rfl⟩
  · rfl
  · have hts_alpha : ∀ t ∈ ts, ∀ c ∈ t, isAlphaCh c = true := fun t ht => (htok t ht).2.1
    have hts_ne : ∀ t ∈ ts, t ≠ [] := fun t ht => (htok t ht).1
    have hchars : ∀ c ∈ joinSp ts, isAlphaCh c = true ∨ c = ' ' := joinSp_chars ts hts_alpha
    have hsp : ∀ t ∈ ts, t ≠ [] ∧ ∀ c ∈ t, isSpaceCh c = false := fun t ht =>
      ⟨hts_ne t ht, fun c hc => alpha_not_space c (hts_alpha t ht c hc)⟩
    obtain ⟨t1, ts', rfl⟩ : ∃ t1 ts', ts = t1 :: ts' := by
      cases ts with
      | nil => exact absurd rfl hne
      | cons a b => exact ⟨a, b, rfl⟩
    obtain ⟨a, t0, rfl⟩ : ∃ a t0, t1 = a :: t0 := by
      cases ht1 : t1 with
      | nil => exact absurd ht1 (hts_ne t1 (List.mem_cons_self t1 ts'))
      | cons a t0 => exact ⟨a, t0, rfl⟩
    have ha : isAlphaCh a = true :=
      hts_alpha _ (List.mem_cons_self _ ts') a (List.mem_cons_self a t0)
    obtain ⟨rrest, ho⟩ : ∃ rrest, joinSp ((a :: t0) :: ts') = a :: rrest := by
      cases ts' with
      | nil => exact ⟨t0, rfl⟩
      | cons t2 ts2 => exact ⟨t0 ++ ' ' :: joinSp (t2 :: ts2), rfl⟩
    obtain ⟨b, s2, hrev, hb⟩ := joinSp_reverse_head ((a :: t0) :: ts') (by simp)
      (fun t ht => ⟨hts_ne t ht, hts_alpha t ht⟩)
    have h1 : basename (joinSp ((a :: t0) :: ts')) = joinSp ((a :: t0) :: ts') :=
      basename_eq_self _ (fun c hc => by
        rcases hchars c hc with h' | h'
        · exact alpha_ne_lit c '/' h' (by decide)
        · subst h'; decide)
    have h2 : splitextRoot (joinSp ((a :: t0) :: ts')) = joinSp ((a :: t0) :: ts') :=
      splitextRoot_eq_self _ (fun c hc => by
        rcases hchars c hc with h' | h'
        · exact alpha_ne_lit c '.' h' (by decide)
        · subst h'; decide)
    have h3 : stripLeadNumDot (joinSp ((a :: t0) :: ts')) = joinSp ((a :: t0) :: ts') := by
      rw [ho]
      exact stripLeadNumDot_eq_self a rrest (alpha_not_space a ha) (alpha_not_digit a ha)
    have h4 : replaceSeps (joinSp ((a :: t0) :: ts')) = joinSp ((a :: t0) :: ts') :=
      replaceSeps_eq_self _ hchars
    have h5 : splitAndColonFirst (joinSp ((a :: t0) :: ts')) = joinSp ((a :: t0) :: ts') := by
      unfold splitAndColonFirst
      refine splitSepGo_eq_self _ _ (fun c hc => ?_)
      rcases hchars c hc with h' | h'
      · simp [alpha_ne_lit c '&' h' (by decide), alpha_ne_lit c ':' h' (by decide)]
      · subst h'; decide
    have h6 : splitDashFirst (joinSp ((a :: t0) :: ts')) = joinSp ((a :: t0) :: ts') := by
      unfold splitDashFirst
      refine splitSepGo_eq_self _ _ (fun c hc => ?_)
      rcases hchars c hc with h' | h'
      · simp [alpha_ne_lit c '-' h' (by decide)]
      · subst h'; decide
    have h7 : parensSub (joinSp ((a :: t0) :: ts')) = joinSp ((a :: t0) :: ts') := by
      unfold parensSub
      refine parensGo_eq_self _ _ (fun c hc => ?_)
      rcases hchars c hc with h' | h'
      · exact alpha_ne_lit c '(' h' (by decide)
      · subst h'; decide
    have h8 : numSub (joinSp ((a :: t0) :: ts')) = joinSp ((a :: t0) :: ts') := by
      unfold numSub
      refine numSubGo_eq_self _ _ (fun c hc => ?_)
      rcases hchars c hc with h' | h'
      · exact alpha_not_digit c h'
      · subst h'; decide
    have h9 : nonAlphaSub (joinSp ((a :: t0) :: ts')) = joinSp ((a :: t0) :: ts') :=
      nonAlphaSub_eq_self _ hchars
    have h10 : spaceCollapse (joinSp ((a :: t0) :: ts')) = joinSp ((a :: t0) :: ts') :=
      spaceCollapse_joinSp _ hsp false
    have h11 : stripStr (joinSp ((a :: t0) :: ts')) = joinSp ((a :: t0) :: ts') :=
      stripStr_eq_self _ a b rrest s2 ho hrev (alpha_not_space a ha) (alpha_not_space b hb)
    have h12 : pysplit (joinSp ((a :: t0) :: ts')) = (a :: t0) :: ts' :=
      pysplit_joinSp _ hsp
    simp only [clean_person_name_from_filename]
    rw [h1, h2, h3, h4, hcv, h5, h6, h7, h8, h9, h10, h11, h12]
    rw [if_neg (by simp)]
    rw [List.take_of_length_le hlen]
    rw [map_id_of _ _ (fun t ht => (htok t ht).2.2)]

/-- Counterexample to C8: the cleanup is not idempotent; removing the digit
of ab1cv exposes a standalone cv token that only the second pass removes:
the first pass gives Ab Cv, the second Ab. -/
theorem C8_counterexample :
    clean_person_name_from_filename ("ab1cv".toList) = "Ab Cv".toList ∧
    clean_person_name_from_filename (clean_person_name_from_filename ("ab1cv".toList)) =
      "Ab".toList ∧
    ¬ clean_person_name_from_filename (clean_person_name_from_filename ("ab1cv".toList)) =
        clean_person_name_from_filename ("ab1cv".toList) := by
  decide

/-- C8 amended: the filename cleanup is idempotent on every filename whose
cleaned output carries no residual CV marker (no standalone cv token and no
curriculum-vitae phrase, that is, the CV-marker substitution fixes the
output), and on the concrete input it returns John Doe. -/
theorem C8_idempotent_without_cv_residue :
    (∀ f : List Char,
      cvSub (clean_person_name_from_filename f) = clean_person_name_from_filename f →
      clean_person_name_from_filename (clean_person_name_from_filename f) =
        clean_person_name_from_filename f) ∧
    clean_person_name_from_filename ("3. John_Doe - CV.pdf".toList) = "John Doe".toList := by
  refine ⟨?_, by decide⟩
  intro f hcv
  exact clean_fixed _ (clean_nice f) hcv

/-- Witness for C8 at the concrete filename: its cleaned output has no CV
residue, so a second cleanup fixes it. -/
theorem C8_idempotent_without_cv_residue_witness :
    clean_person_name_from_filename (clean_person_name_from_filename ("3. John_Doe - CV.pdf".toList)) =
      clean_person_name_from_filename ("3. John_Doe - CV.pdf".toList) :=
  C8_idempotent_without_cv_residue.1 ("3. John_Doe - CV.pdf".toList) (by decide)

end CVExtract
